import Mathlib

/-!
# Verification of the hedge half-edge mesh kernel

A shallow embedding of the hedge-rs half-edge mesh library, together with
theorems settling the specification claims against the code.

The repository snapshot contains two generations of the library:

* `src/mesh.rs` — the plain `Vec`-backed mesh (`Mesh` with `edge_list`,
  `vertex_list`, `face_list`, a sentinel element at slot 0 of every list,
  `connect_edges`, `is_boundary_edge`, fallback-to-sentinel lookups).
  It is embedded below as `MeshO` ("old model").
* `src/lib.rs` + `src/iterators.rs` — the kernel/buffer-backed mesh with a
  mesh-owned visitation-tag counter (`AtomicUsize`, initialised to 1,
  advanced with `fetch_add`), and the tag-stamped walks `FaceEdges` and
  `VertexCirculator`.  The walks are embedded below over `MeshI`
  ("iterator model"); the generational `ElementBuffer` (whose source file
  is not part of the snapshot) is modelled from the specification as
  `EBuf`.

Machine integers (`usize`) are modelled as `Nat`: none of the embedded
operations can overflow in any execution reachable before memory
exhaustion, and none of the claims concerns wrap-around behaviour.
Interior mutability (`Cell<Tag>`, `AtomicUsize`) is modelled by explicit
state passing.  Rust functions that return references into the mesh are
modelled as functions returning the referenced value.
-/

/-! ## Old model: `src/mesh.rs` and its components

The component records (`components.rs`) and the cursor layer
(`function_sets.rs`) are not part of the snapshot; their fields and
operations are modelled from the specification (§3 data model, §4.4
cursor layer) and from how `mesh.rs` uses them (`next_index`,
`prev_index`, `edge_index`, `edge_fn(..).twin()`, `edge_fn(..).face()`).
Indices are `Nat`; the invalid/sentinel index is 0.
-/

/-- Half-edge record.  Modelled from the spec: `components.rs` is missing
from the snapshot; §3 gives the fields (twin, next/prev, origin vertex,
owning face), `mesh.rs` uses `next_index`/`prev_index` by name. -/
structure EdgeO where
  twin_index : Nat
  next_index : Nat
  prev_index : Nat
  vertex_index : Nat
  face_index : Nat
deriving Repr, DecidableEq

/-- `Edge::default()`: every reference is the invalid index 0. -/
def EdgeO.sentinel : EdgeO := ⟨0, 0, 0, 0, 0⟩

/-- Vertex record.  Modelled from the spec (§3): one outgoing half-edge
reference. -/
structure VertexO where
  edge_index : Nat
deriving Repr, DecidableEq

def VertexO.sentinel : VertexO := ⟨0⟩

/-- Face record.  Modelled from the spec (§3): a reference to one "root"
half-edge (field name `edge_index` as used by `mesh.rs`). -/
structure FaceO where
  edge_index : Nat
deriving Repr, DecidableEq

def FaceO.sentinel : FaceO := ⟨0⟩

/-- The `Vec`-backed mesh of `src/mesh.rs`. -/
structure MeshO where
  edge_list : List EdgeO
  vertex_list : List VertexO
  face_list : List FaceO
deriving Repr, DecidableEq

/-- `Mesh::new()` (`mesh.rs`): one sentinel component at the front of each
list. -/
def MeshO.new : MeshO :=
  ⟨[EdgeO.sentinel], [VertexO.sentinel], [FaceO.sentinel]⟩

/-- `Mesh::edge` (`mesh.rs` lines 163-170): in-range lookup, else a
reference to `edge_list[0]` (the mesh is always built with a sentinel at
slot 0; `headD` supplies it). -/
def MeshO.edgeAt (m : MeshO) (i : Nat) : EdgeO :=
  match m.edge_list.get? i with
  | some e => e
  | none => m.edge_list.headD EdgeO.sentinel

/-- `Mesh::face` (`mesh.rs`): in-range lookup, else `face_list[0]`. -/
def MeshO.faceAt (m : MeshO) (i : Nat) : FaceO :=
  match m.face_list.get? i with
  | some f => f
  | none => m.face_list.headD FaceO.sentinel

/-- `Mesh::vertex` (`mesh.rs`): in-range lookup, else `vertex_list[0]`. -/
def MeshO.vertexAt (m : MeshO) (i : Nat) : VertexO :=
  match m.vertex_list.get? i with
  | some v => v
  | none => m.vertex_list.headD VertexO.sentinel

/-- Index validity.  Modelled from the spec: an index is invalid exactly
when it is the default/sentinel index 0 (`INVALID_COMPONENT_INDEX`). -/
def indexValid (i : Nat) : Bool := i != 0

/-- `EdgeFn::twin()` as an index.  Modelled from the spec (§4.4 cursor
layer): navigation reads the twin reference of the edge the cursor
names, resolving lookups through `Mesh::edge`. -/
def edgeFnTwin (m : MeshO) (e : Nat) : Nat := (m.edgeAt e).twin_index

/-- `EdgeFn::face()` as an index.  Modelled from the spec (§4.4). -/
def edgeFnFace (m : MeshO) (e : Nat) : Nat := (m.edgeAt e).face_index

/-- `FaceFn::is_valid()`.  Modelled from the spec (§4.3): validity is the
conjunction of a non-sentinel handle and a valid primary connectivity
reference (the face's root edge). -/
def faceFnIsValid (m : MeshO) (f : Nat) : Bool :=
  indexValid f && indexValid (m.faceAt f).edge_index

/-- `Edge::is_valid()`.  Modelled from the spec (§4.3): an edge is valid
when its twin and origin-vertex references are valid. -/
def edgeElemValid (e : EdgeO) : Bool :=
  indexValid e.twin_index && indexValid e.vertex_index

/-- `Mesh::is_boundary_edge` (`mesh.rs` lines 57-63):
`!edge_fn(e).face().is_valid() || !edge_fn(e).twin().face().is_valid()`. -/
def isBoundaryEdge (m : MeshO) (e : Nat) : Bool :=
  !(faceFnIsValid m (edgeFnFace m e)) ||
    !(faceFnIsValid m (edgeFnFace m (edgeFnTwin m e)))

/-- `Mesh::edge_mut` writes: replace the edge at slot `i`
(out of range is a `debug_assert`-guarded panic in Rust; the embedding
makes it a no-op and the theorems carry in-range hypotheses). -/
def MeshO.setEdge (m : MeshO) (i : Nat) (e : EdgeO) : MeshO :=
  { m with edge_list := m.edge_list.set i e }

/-- `Mesh::connect_edges` (`mesh.rs` lines 49-55):
`edge_mut(prev).next_index = next; edge_mut(next).prev_index = prev`.
The second statement reads the state produced by the first. -/
def connectEdges (m : MeshO) (prev next : Nat) : MeshO :=
  let m1 := m.setEdge prev { m.edge_list.getD prev EdgeO.sentinel with next_index := next }
  m1.setEdge next { m1.edge_list.getD next EdgeO.sentinel with prev_index := prev }

/-! ## Basic lookup lemmas for the old model -/

theorem MeshO.edgeAt_of_lt (m : MeshO) (i : Nat) (h : i < m.edge_list.length) :
    m.edgeAt i = m.edge_list.getD i EdgeO.sentinel := by
  unfold MeshO.edgeAt
  rw [List.getD_eq_getElem?_getD]
  rw [List.get?_eq_getElem?]
  cases h2 : m.edge_list[i]? with
  | none => simp [List.getElem?_eq_none_iff] at h2; omega
  | some e => simp

theorem setEdge_length (m : MeshO) (i : Nat) (e : EdgeO) :
    (m.setEdge i e).edge_list.length = m.edge_list.length := by
  simp [MeshO.setEdge]

theorem getD_set_ne {α : Type} (l : List α) (i j : Nat) (a d : α) (h : i ≠ j) :
    (l.set i a).getD j d = l.getD j d := by
  simp [List.getD_eq_getElem?_getD, List.getElem?_set_ne h]

theorem getD_set_self {α : Type} (l : List α) (i : Nat) (a d : α) (h : i < l.length) :
    (l.set i a).getD i d = a := by
  simp [List.getD_eq_getElem?_getD, List.getElem?_set_self, h]

/-- Characterisation of the edge list after `connect_edges`: slot `next`
gets its `prev_index` set to `prev`, slot `prev` gets its `next_index`
set to `next` (the write to `next` happening second), and every other
slot is untouched. -/
theorem connectEdges_getD (m : MeshO) (p n i : Nat)
    (hp : p < m.edge_list.length) (hn : n < m.edge_list.length) :
    (connectEdges m p n).edge_list.getD i EdgeO.sentinel =
      if i = n then
        { (if n = p then { m.edge_list.getD p EdgeO.sentinel with next_index := n }
           else m.edge_list.getD n EdgeO.sentinel) with prev_index := p }
      else if i = p then { m.edge_list.getD p EdgeO.sentinel with next_index := n }
      else m.edge_list.getD i EdgeO.sentinel := by
  unfold connectEdges MeshO.setEdge
  simp only
  by_cases hin : i = n
  · subst hin
    rw [getD_set_self _ _ _ _ (by simpa using hn)]
    by_cases hnp : i = p
    · subst hnp
      rw [getD_set_self _ _ _ _ hp]
      simp
    · rw [getD_set_ne _ _ _ _ _ (fun h => hnp h.symm)]
      simp [hnp]
  · rw [getD_set_ne _ _ _ _ _ (fun h => hin h.symm)]
    by_cases hip : i = p
    · subst hip
      rw [getD_set_self _ _ _ _ hp]
      simp [hin]
    · rw [getD_set_ne _ _ _ _ _ (fun h => hip h.symm)]
      simp [hin, hip]

theorem connectEdges_length (m : MeshO) (p n : Nat) :
    (connectEdges m p n).edge_list.length = m.edge_list.length := by
  simp [connectEdges, MeshO.setEdge]

theorem connectEdges_edgeAt (m : MeshO) (p n i : Nat)
    (hp : p < m.edge_list.length) (hn : n < m.edge_list.length)
    (hi : i < m.edge_list.length) :
    (connectEdges m p n).edgeAt i =
      (connectEdges m p n).edge_list.getD i EdgeO.sentinel := by
  apply MeshO.edgeAt_of_lt
  rw [connectEdges_length]
  exact hi

/-- C8: `connect_edges(prev, next)` sets `prev`'s next-reference to `next`
and `next`'s prev-reference to `prev`; every other field of every edge is
unchanged (in particular, for distinct handles, `prev`'s own
prev-reference and `next`'s own next-reference), and the vertex and face
lists are untouched. -/
theorem connect_edges_spec (m : MeshO) (p n : Nat)
    (hp : p < m.edge_list.length) (hn : n < m.edge_list.length) :
    ((connectEdges m p n).edgeAt p).next_index = n ∧
    ((connectEdges m p n).edgeAt n).prev_index = p ∧
    (∀ i, i < m.edge_list.length → i ≠ p →
      ((connectEdges m p n).edgeAt i).next_index = (m.edgeAt i).next_index) ∧
    (∀ i, i < m.edge_list.length → i ≠ n →
      ((connectEdges m p n).edgeAt i).prev_index = (m.edgeAt i).prev_index) ∧
    (∀ i, i < m.edge_list.length →
      ((connectEdges m p n).edgeAt i).twin_index = (m.edgeAt i).twin_index ∧
      ((connectEdges m p n).edgeAt i).vertex_index = (m.edgeAt i).vertex_index ∧
      ((connectEdges m p n).edgeAt i).face_index = (m.edgeAt i).face_index) ∧
    (p ≠ n →
      ((connectEdges m p n).edgeAt p).prev_index = (m.edgeAt p).prev_index ∧
      ((connectEdges m p n).edgeAt n).next_index = (m.edgeAt n).next_index) ∧
    (connectEdges m p n).edge_list.length = m.edge_list.length ∧
    (connectEdges m p n).vertex_list = m.vertex_list ∧
    (connectEdges m p n).face_list = m.face_list := by
  have hread : ∀ i, i < m.edge_list.length →
      (connectEdges m p n).edgeAt i =
        (connectEdges m p n).edge_list.getD i EdgeO.sentinel :=
    fun i hi => connectEdges_edgeAt m p n i hp hn hi
  refine ⟨?_, ?_, ?_, ?_, ?_, ?_, connectEdges_length m p n, ?_, ?_⟩
  · rw [hread p hp, connectEdges_getD m p n p hp hn]
    by_cases hpn : p = n <;> simp [hpn]
  · rw [hread n hn, connectEdges_getD m p n n hp hn]
    simp
  · intro i hi hip
    rw [hread i hi, connectEdges_getD m p n i hp hn,
      MeshO.edgeAt_of_lt m i hi]
    by_cases hin : i = n
    · subst hin
      have hnp : ¬ i = p := hip
      simp [hnp]
    · simp [hin, hip]
  · intro i hi hin
    rw [hread i hi, connectEdges_getD m p n i hp hn,
      MeshO.edgeAt_of_lt m i hi]
    by_cases hip : i = p
    · subst hip
      simp [hin]
    · simp [hin, hip]
  · intro i hi
    rw [hread i hi, connectEdges_getD m p n i hp hn,
      MeshO.edgeAt_of_lt m i hi]
    by_cases hin : i = n
    · subst hin
      by_cases hnp : i = p <;> simp [hnp]
    · by_cases hip : i = p
      · subst hip
        simp [hin]
      · simp [hin, hip]
  · intro hpn
    constructor
    · rw [hread p hp, connectEdges_getD m p n p hp hn,
        MeshO.edgeAt_of_lt m p hp]
      simp [hpn]
    · have hnp : n ≠ p := fun h => hpn h.symm
      rw [hread n hn, connectEdges_getD m p n n hp hn,
        MeshO.edgeAt_of_lt m n hn]
      simp [hnp]
  · simp [connectEdges, MeshO.setEdge]
  · simp [connectEdges, MeshO.setEdge]

/-- C8 witness: a concrete three-edge mesh, connecting edges 1 and 2. -/
def mC8 : MeshO :=
  ⟨[EdgeO.sentinel, ⟨2, 0, 0, 1, 1⟩, ⟨1, 0, 0, 2, 1⟩, ⟨0, 0, 0, 3, 0⟩],
   [VertexO.sentinel, ⟨1⟩, ⟨2⟩, ⟨3⟩], [FaceO.sentinel, ⟨1⟩]⟩

theorem connect_edges_spec_witness :
    1 < mC8.edge_list.length ∧ 2 < mC8.edge_list.length ∧
    ((connectEdges mC8 1 2).edgeAt 1).next_index = 2 ∧
    ((connectEdges mC8 1 2).edgeAt 2).prev_index = 1 := by
  have h := connect_edges_spec mC8 1 2 (by decide) (by decide)
  exact ⟨by decide, by decide, h.1, h.2.1⟩

/-- C4: for an active edge `e` with a valid (resolvable) twin reference,
`is_boundary_edge(e)` is true exactly when `e`'s owning face is invalid
or the owning face of `e`'s twin is invalid (the right-hand side reads
the edge records directly, without the cursor layer's
fallback-to-sentinel lookups). -/
theorem is_boundary_edge_iff (m : MeshO) (e : Nat)
    (he0 : e ≠ 0) (helt : e < m.edge_list.length)
    (hact : edgeElemValid (m.edge_list.getD e EdgeO.sentinel) = true)
    (htlt : (m.edge_list.getD e EdgeO.sentinel).twin_index < m.edge_list.length) :
    isBoundaryEdge m e = true ↔
      (¬ faceFnIsValid m (m.edge_list.getD e EdgeO.sentinel).face_index = true ∨
       ¬ faceFnIsValid m
          ((m.edge_list.getD (m.edge_list.getD e EdgeO.sentinel).twin_index
            EdgeO.sentinel).face_index) = true) := by
  unfold isBoundaryEdge edgeFnFace edgeFnTwin
  rw [MeshO.edgeAt_of_lt m e helt, MeshO.edgeAt_of_lt m _ htlt]
  simp

/-- C4 witness: a two-edge mesh in which edge 1 has a valid face and its
twin (edge 2) has no face; the query reports a boundary. -/
def mC4 : MeshO :=
  ⟨[EdgeO.sentinel, ⟨2, 1, 1, 1, 1⟩, ⟨1, 2, 2, 2, 0⟩],
   [VertexO.sentinel, ⟨1⟩, ⟨2⟩], [FaceO.sentinel, ⟨1⟩]⟩

theorem is_boundary_edge_iff_witness :
    (1 : Nat) ≠ 0 ∧ 1 < mC4.edge_list.length ∧
    edgeElemValid (mC4.edge_list.getD 1 EdgeO.sentinel) = true ∧
    (mC4.edge_list.getD 1 EdgeO.sentinel).twin_index < mC4.edge_list.length ∧
    (isBoundaryEdge mC4 1 = true ↔
      (¬ faceFnIsValid mC4 (mC4.edge_list.getD 1 EdgeO.sentinel).face_index = true ∨
       ¬ faceFnIsValid mC4
          ((mC4.edge_list.getD (mC4.edge_list.getD 1 EdgeO.sentinel).twin_index
            EdgeO.sentinel).face_index) = true)) :=
  ⟨by decide, by decide, by decide, by decide,
    is_boundary_edge_iff mC4 1 (by decide) (by decide) (by decide) (by decide)⟩

/-- C9 counterexample mesh: edge 1 carries a valid owning face, while its
twin (edge 2) has no owning face. -/
def mC9 : MeshO :=
  ⟨[EdgeO.sentinel, ⟨2, 1, 1, 1, 1⟩, ⟨1, 2, 2, 2, 0⟩],
   [VertexO.sentinel, ⟨1⟩, ⟨2⟩], [FaceO.sentinel, ⟨1⟩]⟩

/-- C9 counterexample: the claim "is-boundary returns true iff the edge's
owning face is invalid" fails on `is_boundary_edge` at edge 1 of `mC9`:
the owning face of edge 1 is valid, yet the query returns true (because
the twin's face is invalid). -/
theorem is_boundary_face_only_cex :
    isBoundaryEdge mC9 1 = true ∧
    faceFnIsValid mC9 (edgeFnFace mC9 1) = true := by decide

/-- C9 amended: `is_boundary_edge` returns true iff the edge's owning
face is invalid **or** the owning face of the edge's twin is invalid
(faces and twins read through the cursor layer's total navigation). -/
theorem is_boundary_edge_amended (m : MeshO) (e : Nat) :
    isBoundaryEdge m e = true ↔
      (¬ faceFnIsValid m ((m.edgeAt e).face_index) = true ∨
       ¬ faceFnIsValid m ((m.edgeAt (m.edgeAt e).twin_index).face_index) = true) := by
  unfold isBoundaryEdge edgeFnFace edgeFnTwin
  simp

/-! ## Iterator model: `src/lib.rs` + `src/iterators.rs`

`MeshI` embeds the kernel-backed mesh as far as the tag-stamped walks
need it: half-edges with connectivity references and a mutable
visitation tag (`ElementProperties::tag`, a `Cell<Tag>` writable through
a shared reference), faces with an active status and a root-edge
reference (`src/core/face.rs`), vertices with an outgoing-edge
reference, and the mesh-owned tag counter (`Mesh::tag`, an
`AtomicUsize`).

Cross references are plain `Nat` indices.  The generational
`ElementBuffer::get` of the missing buffer module returns a reference to
the sentinel at slot 0 whenever a handle does not resolve (sentinel
handle, out of range, stale generation); `resolveE`/`resolveF` model
exactly that fallback, so a non-resolving reference is represented by
any index that is 0 or out of range. -/

/-- Half-edge element of the kernel mesh.  Connectivity fields modelled
from the spec (§3); `tag` is the element's visitation-tag cell. -/
structure EdgeI where
  twin : Nat
  next : Nat
  prev : Nat
  vertex : Nat
  face : Nat
  tag : Nat
deriving Repr, DecidableEq

/-- `Edge::default()`: all references invalid, visitation tag zero
(spec §3 lifecycle: elements are created with visitation tag zero). -/
def EdgeI.sentinel : EdgeI := ⟨0, 0, 0, 0, 0, 0⟩

/-- Face element (`src/core/face.rs`): an active status and the root
edge reference of its loop. -/
structure FaceI where
  status : Bool
  edge : Nat
deriving Repr, DecidableEq

def FaceI.sentinel : FaceI := ⟨false, 0⟩

/-- Vertex element: one outgoing half-edge reference (spec §3). -/
structure VertexI where
  edge : Nat
deriving Repr, DecidableEq

def VertexI.sentinel : VertexI := ⟨0⟩

/-- The kernel mesh as seen by the walks: the three element lists (slot 0
sentinel) and the visitation-tag counter (`Mesh::tag`). -/
structure MeshI where
  edges : List EdgeI
  faces : List FaceI
  verts : List VertexI
  tagCounter : Nat
deriving Repr, DecidableEq

/-- `Mesh::new()` (`lib.rs` lines 56-61): sentinel-only buffers and the
tag counter initialised to 1. -/
def MeshI.new : MeshI :=
  ⟨[EdgeI.sentinel], [FaceI.sentinel], [VertexI.sentinel], 1⟩

/-- `Mesh::next_tag` (`lib.rs` lines 63-65): `fetch_add(1)` returns the
current counter value and increments it. -/
def MeshI.nextTag (m : MeshI) : Nat × MeshI :=
  (m.tagCounter, { m with tagCounter := m.tagCounter + 1 })

/-- Slot an edge handle resolves to: itself when in range, the sentinel
slot 0 otherwise (the `ElementBuffer::get` fallback). -/
def resolveE (m : MeshI) (i : Nat) : Nat :=
  if i < m.edges.length then i else 0

/-- Slot a face handle resolves to. -/
def resolveF (m : MeshI) (i : Nat) : Nat :=
  if i < m.faces.length then i else 0

/-- Slot a vertex handle resolves to. -/
def resolveV (m : MeshI) (i : Nat) : Nat :=
  if i < m.verts.length then i else 0

/-- The edge element a handle resolves to (`ElementBuffer::get` with
sentinel fallback). -/
def MeshI.edgeRef (m : MeshI) (i : Nat) : EdgeI :=
  m.edges.getD (resolveE m i) EdgeI.sentinel

/-- The visitation tag read through a handle
(`edge.element.props().tag.get()`). -/
def tagOfR (m : MeshI) (i : Nat) : Nat := (m.edgeRef i).tag

/-- `EdgeFn::next()` as an index.  Modelled from the spec (§4.4):
navigation reads the next-reference of the resolved edge. -/
def nextOfR (m : MeshI) (i : Nat) : Nat := (m.edgeRef i).next

/-- `EdgeFn::prev()` as an index.  Modelled from the spec (§4.4). -/
def prevOfR (m : MeshI) (i : Nat) : Nat := (m.edgeRef i).prev

/-- `EdgeFn::twin()` as an index.  Modelled from the spec (§4.4). -/
def twinOfR (m : MeshI) (i : Nat) : Nat := (m.edgeRef i).twin

/-- `FaceFn::is_valid()` for the kernel mesh: non-sentinel handle and a
valid element (`src/core/face.rs` lines 28-34: active status and a valid
root edge reference). -/
def faceValidI (m : MeshI) (f : Nat) : Bool :=
  (f != 0) && (m.faces.getD (resolveF m f) FaceI.sentinel).status &&
    ((m.faces.getD (resolveF m f) FaceI.sentinel).edge != 0)

/-- `EdgeFn::is_boundary()`.  Modelled from the spec (§4.4 edge cursor:
"is-boundary (true iff face is invalid)"). -/
def isBoundaryI (m : MeshI) (e : Nat) : Bool :=
  !(faceValidI m (m.edgeRef e).face)

/-- `VertexFn::edge()` as an index: the vertex's outgoing half-edge. -/
def veOf (m : MeshI) (v : Nat) : Nat :=
  (m.verts.getD (resolveV m v) VertexI.sentinel).edge

/-- Stamp the visitation tag of the edge a handle resolves to
(`edge.element.props().tag.set(tag)`). -/
def stampE (m : MeshI) (i : Nat) (t : Nat) : MeshI :=
  { m with edges := m.edges.set (resolveE m i) { m.edgeRef i with tag := t } }

/-- Walker state shared by the two tag-stamped walks: the current edge
handle and, for the circulator, the direction
(`cw = false` is `CirculatorDirection::CCW`). -/
structure WSt where
  cur : Nat
  cw : Bool
deriving Repr, DecidableEq

/-- Successor of the face edge-loop walk (`FaceEdges::next`, line 139:
`self.edge = self.edge.next()`). -/
def feSucc (m : MeshI) (s : WSt) : WSt := { s with cur := nextOfR m s.cur }

/-- Successor of the vertex circulator (`VertexCirculator::next`, lines
206-220), with `ve` the vertex's own outgoing edge (`self.vertex.edge()`):
counter-clockwise rotation is "prev then twin"; reaching a boundary edge
pivots to `vertex.edge().twin().next()` and switches to clockwise
"twin then next"; a boundary edge met clockwise sends the walk back to
`vertex.edge()` (stamped on the first step) to terminate it. -/
def vcSucc (m : MeshI) (ve : Nat) (s : WSt) : WSt :=
  if s.cw then
    if isBoundaryI m s.cur then ⟨ve, true⟩
    else ⟨nextOfR m (twinOfR m s.cur), true⟩
  else
    if isBoundaryI m s.cur then ⟨nextOfR m (twinOfR m ve), true⟩
    else ⟨twinOfR m (prevOfR m s.cur), false⟩

/-- One call to `next()` of a tag-stamped walk with successor `succ`:
`None` when the current edge already carries the pass tag, otherwise
stamp it, yield it, and advance. -/
def tagStep (succ : MeshI → WSt → WSt) (t : Nat) (m : MeshI) (s : WSt) :
    Option (Nat × MeshI × WSt) :=
  if tagOfR m s.cur = t then none
  else some (s.cur, stampE m s.cur t, succ (stampE m s.cur t) s)

/-- Drive a tag-stamped walk for at most `fuel` calls, collecting the
yielded edge handles and the final mesh and walker state. -/
def runWalk (succ : MeshI → WSt → WSt) (t : Nat) :
    Nat → MeshI → WSt → List Nat × MeshI × WSt
  | 0, m, s => ([], m, s)
  | fuel + 1, m, s =>
    match tagStep succ t m s with
    | none => ([], m, s)
    | some (y, m2, s2) =>
      let r := runWalk succ t fuel m2 s2
      (y :: r.1, r.2.1, r.2.2)

/-- The `FaceEdges` walk (`iterators.rs` lines 119-143) from a face's
root edge, as driven to exhaustion by repeated `next()` calls. -/
def runFaceEdges (m : MeshI) (t root fuel : Nat) : List Nat × MeshI × WSt :=
  runWalk feSucc t fuel m ⟨root, false⟩

/-- The `VertexCirculator` walk (`iterators.rs` lines 174-225) for a
vertex, starting at the vertex's outgoing edge in direction CCW. -/
def runVertexCirc (m : MeshI) (t v fuel : Nat) : List Nat × MeshI × WSt :=
  runWalk (fun mm s => vcSucc mm (veOf m v) s) t fuel m ⟨veOf m v, false⟩

/-- Number of edge slots not yet carrying tag `t`: the budget of a
tag-stamped walk. -/
def untaggedCount (m : MeshI) (t : Nat) : Nat :=
  (m.edges.filter (fun e => e.tag != t)).length

/-! ## Stamping lemmas

Stamping a visitation tag changes nothing but the tag of the resolved
slot: lengths, connectivity fields, face/vertex lists and hence all
navigation are preserved. -/

theorem stampE_edges_length (m : MeshI) (i t : Nat) :
    (stampE m i t).edges.length = m.edges.length := by
  simp [stampE]

theorem resolveE_stampE (m : MeshI) (i t j : Nat) :
    resolveE (stampE m i t) j = resolveE m j := by
  simp [resolveE, stampE_edges_length]

theorem resolveE_lt (m : MeshI) (i : Nat) (hm : 0 < m.edges.length) :
    resolveE m i < m.edges.length := by
  unfold resolveE
  by_cases h : i < m.edges.length <;> simp [h, hm]

theorem edgeRef_eq_of_resolve_eq (m : MeshI) (i j : Nat)
    (h : resolveE m i = resolveE m j) : m.edgeRef i = m.edgeRef j := by
  simp [MeshI.edgeRef, h]

theorem edgeRef_stampE (m : MeshI) (i t j : Nat) :
    (stampE m i t).edgeRef j =
      if resolveE m j = resolveE m i then
        (if 0 < m.edges.length then { m.edgeRef i with tag := t } else m.edgeRef j)
      else m.edgeRef j := by
  by_cases hr : resolveE m j = resolveE m i
  · by_cases hm : 0 < m.edges.length
    · simp only [hr, hm, if_true]
      unfold MeshI.edgeRef
      rw [resolveE_stampE, hr]
      show ((stampE m i t).edges).getD (resolveE m i) EdgeI.sentinel = _
      unfold stampE
      simp only
      exact getD_set_self _ _ _ _ (resolveE_lt m i hm)
    · have hlen : m.edges.length = 0 := Nat.eq_zero_of_not_pos hm
      have hnil : m.edges = [] := List.length_eq_zero.mp hlen
      simp [MeshI.edgeRef, stampE, hnil, hr, hm]
  · simp only [hr, if_false]
    unfold MeshI.edgeRef
    rw [resolveE_stampE]
    show ((stampE m i t).edges).getD (resolveE m j) EdgeI.sentinel = _
    unfold stampE
    simp only
    exact getD_set_ne _ _ _ _ _ (fun h => hr h.symm)

theorem edgeRef_stampE_fields (m : MeshI) (i t j : Nat) :
    ((stampE m i t).edgeRef j).twin = (m.edgeRef j).twin ∧
    ((stampE m i t).edgeRef j).next = (m.edgeRef j).next ∧
    ((stampE m i t).edgeRef j).prev = (m.edgeRef j).prev ∧
    ((stampE m i t).edgeRef j).vertex = (m.edgeRef j).vertex ∧
    ((stampE m i t).edgeRef j).face = (m.edgeRef j).face := by
  rw [edgeRef_stampE]
  by_cases hr : resolveE m j = resolveE m i
  · by_cases hm : 0 < m.edges.length
    · have he := edgeRef_eq_of_resolve_eq m j i hr
      simp [hr, hm, he]
    · simp [hr, hm]
  · simp [hr]

theorem nextOfR_stampE (m : MeshI) (i t j : Nat) :
    nextOfR (stampE m i t) j = nextOfR m j :=
  (edgeRef_stampE_fields m i t j).2.1

theorem prevOfR_stampE (m : MeshI) (i t j : Nat) :
    prevOfR (stampE m i t) j = prevOfR m j :=
  (edgeRef_stampE_fields m i t j).2.2.1

theorem twinOfR_stampE (m : MeshI) (i t j : Nat) :
    twinOfR (stampE m i t) j = twinOfR m j :=
  (edgeRef_stampE_fields m i t j).1

theorem faceValidI_stampE (m : MeshI) (i t f : Nat) :
    faceValidI (stampE m i t) f = faceValidI m f := by
  simp [faceValidI, resolveF, stampE]

theorem isBoundaryI_stampE (m : MeshI) (i t j : Nat) :
    isBoundaryI (stampE m i t) j = isBoundaryI m j := by
  unfold isBoundaryI
  rw [faceValidI_stampE, (edgeRef_stampE_fields m i t j).2.2.2.2]

theorem veOf_stampE (m : MeshI) (i t v : Nat) :
    veOf (stampE m i t) v = veOf m v := by
  simp [veOf, resolveV, stampE]

theorem tagOfR_stampE (m : MeshI) (i t j : Nat) (hm : 0 < m.edges.length) :
    tagOfR (stampE m i t) j =
      if resolveE m j = resolveE m i then t else tagOfR m j := by
  unfold tagOfR
  rw [edgeRef_stampE]
  by_cases hr : resolveE m j = resolveE m i <;> simp [hr, hm]

theorem tagOfR_stampE_of_eq (m : MeshI) (i t j : Nat) (h : tagOfR m j = t) :
    tagOfR (stampE m i t) j = t := by
  by_cases hm : 0 < m.edges.length
  · rw [tagOfR_stampE m i t j hm]
    by_cases hr : resolveE m j = resolveE m i <;> simp [hr, h]
  · have hnil : m.edges = [] :=
      List.length_eq_zero.mp (Nat.eq_zero_of_not_pos hm)
    simpa [tagOfR, MeshI.edgeRef, stampE, hnil] using h

theorem feSucc_stampE (m : MeshI) (i t : Nat) (s : WSt) :
    feSucc (stampE m i t) s = feSucc m s := by
  simp [feSucc, nextOfR_stampE]

theorem vcSucc_stampE (m : MeshI) (i t ve : Nat) (s : WSt) :
    vcSucc (stampE m i t) ve s = vcSucc m ve s := by
  unfold vcSucc
  rw [isBoundaryI_stampE, nextOfR_stampE, twinOfR_stampE, nextOfR_stampE,
    twinOfR_stampE, prevOfR_stampE, twinOfR_stampE]

/-! ## The master lemma for tag-stamped walks

`chainSeg succ m s todo sfin` says: starting the walk in state `s`, the
successor function (evaluated on `m`; stamping does not change it) steps
through exactly the edges of `todo` and leaves the walker in state
`sfin`.  If every edge of `todo` is distinct, self-resolving and not yet
carrying the pass tag, and the final current edge either was already
stamped during the pass or carried the tag beforehand, the walk yields
exactly `todo`. -/

def chainSeg (succ : MeshI → WSt → WSt) (m : MeshI) :
    WSt → List Nat → WSt → Prop
  | s, [], sfin => s = sfin
  | s, e :: rest, sfin => s.cur = e ∧ chainSeg succ m (succ m s) rest sfin

theorem chainSeg_congr (succ : MeshI → WSt → WSt) (m1 m2 : MeshI)
    (h : ∀ s, succ m1 s = succ m2 s) :
    ∀ (l : List Nat) (s sfin : WSt),
      chainSeg succ m1 s l sfin → chainSeg succ m2 s l sfin := by
  intro l
  induction l with
  | nil => intro s sfin hc; exact hc
  | cons e rest ih =>
    intro s sfin hc
    refine ⟨hc.1, ?_⟩
    rw [← h s]
    exact ih _ _ hc.2

theorem chainSeg_append (succ : MeshI → WSt → WSt) (m : MeshI) :
    ∀ (l1 l2 : List Nat) (s smid sfin : WSt),
      chainSeg succ m s l1 smid → chainSeg succ m smid l2 sfin →
      chainSeg succ m s (l1 ++ l2) sfin := by
  intro l1
  induction l1 with
  | nil =>
    intro l2 s smid sfin h1 h2
    cases h1
    exact h2
  | cons e rest ih =>
    intro l2 s smid sfin h1 h2
    exact ⟨h1.1, ih l2 _ smid sfin h1.2 h2⟩

/-- Master lemma: a tag-stamped walk driven with enough fuel yields
exactly the edges of a chain of distinct, self-resolving, untagged
edges whose final state points back into the chain (or at an edge
already carrying the tag). -/
theorem runWalk_eq_of_chainSeg (succ : MeshI → WSt → WSt)
    (hsucc : ∀ (mm : MeshI) (i tt : Nat) (s : WSt),
      succ (stampE mm i tt) s = succ mm s)
    (t : Nat) :
    ∀ (todo : List Nat) (m : MeshI) (s sfin : WSt) (fuel : Nat),
      0 < m.edges.length →
      chainSeg succ m s todo sfin →
      todo.Nodup →
      (∀ e ∈ todo, resolveE m e = e) →
      (∀ e ∈ todo, tagOfR m e ≠ t) →
      (resolveE m sfin.cur ∈ todo ∨ tagOfR m sfin.cur = t) →
      todo.length ≤ fuel →
      (runWalk succ t fuel m s).1 = todo := by
  intro todo
  induction todo with
  | nil =>
    intro m s sfin fuel _ hc _ _ _ hstop _
    cases hc
    have ht : tagOfR m s.cur = t := by
      cases hstop with
      | inl h => exact absurd h (List.not_mem_nil _)
      | inr h => exact h
    cases fuel with
    | zero => rfl
    | succ f => simp [runWalk, tagStep, ht]
  | cons e rest ih =>
    intro m s sfin fuel hm hc hnd hres htag hstop hfuel
    obtain ⟨hcur, hcrest⟩ := hc
    have hte : tagOfR m s.cur ≠ t := by
      rw [hcur]; exact htag e (List.mem_cons_self e rest)
    have hre : resolveE m e = e := hres e (List.mem_cons_self e rest)
    cases fuel with
    | zero => exact absurd hfuel (by simp)
    | succ f =>
      have hstep : runWalk succ t (f + 1) m s =
          (s.cur :: (runWalk succ t f (stampE m s.cur t) (succ (stampE m s.cur t) s)).1,
           (runWalk succ t f (stampE m s.cur t) (succ (stampE m s.cur t) s)).2.1,
           (runWalk succ t f (stampE m s.cur t) (succ (stampE m s.cur t) s)).2.2) := by
        simp [runWalk, tagStep, hte]
      rw [hstep]
      simp only [hcur]
      congr 1
      have hsucc2 : succ (stampE m e t) s = succ m s := hsucc m e t s
      rw [hsucc2]
      apply ih (stampE m e t) (succ m s) sfin f
      · rw [stampE_edges_length]; exact hm
      · exact chainSeg_congr succ m (stampE m e t)
          (fun s0 => (hsucc m e t s0).symm) rest (succ m s) sfin hcrest
      · exact hnd.of_cons
      · intro x hx
        rw [resolveE_stampE]
        exact hres x (List.mem_cons_of_mem e hx)
      · intro x hx
        rw [tagOfR_stampE m e t x hm]
        have hrx : resolveE m x = x := hres x (List.mem_cons_of_mem e hx)
        have hxe : x ≠ e := by
          intro hcontra
          subst hcontra
          exact (List.nodup_cons.mp hnd).1 hx
        rw [hre, hrx]
        simp only [hxe, if_false]
        exact htag x (List.mem_cons_of_mem e hx)
      · rw [resolveE_stampE]
        cases hstop with
        | inl hin =>
          rcases List.mem_cons.mp hin with hh | hh
          · right
            rw [tagOfR_stampE m e t sfin.cur hm, hre, hh]
            simp
          · left; exact hh
        | inr hh =>
          right
          exact tagOfR_stampE_of_eq m e t sfin.cur hh
      · exact Nat.le_of_succ_le_succ hfuel

/-! ## C1: the face edge-loop walk -/

/-- `nextCycle m cur es stop`: starting at `cur`, the next-references
step through exactly the edges of `es` and then reach `stop`.  With
`cur = stop = root` this is the claim's "the edge loop followed via
next-references from the root is a cycle returning to the root". -/
def nextCycle (m : MeshI) : Nat → List Nat → Nat → Prop
  | cur, [], stop => cur = stop
  | cur, e :: rest, stop => cur = e ∧ nextCycle m (nextOfR m e) rest stop

theorem chainSeg_of_nextCycle (m : MeshI) :
    ∀ (es : List Nat) (cur stop : Nat), nextCycle m cur es stop →
      chainSeg feSucc m ⟨cur, false⟩ es ⟨stop, false⟩ := by
  intro es
  induction es with
  | nil =>
    intro cur stop h
    cases h
    rfl
  | cons e rest ih =>
    intro cur stop h
    obtain ⟨hcur, hrest⟩ := h
    refine ⟨hcur, ?_⟩
    show chainSeg feSucc m (feSucc m ⟨cur, false⟩) rest ⟨stop, false⟩
    have : feSucc m ⟨cur, false⟩ = ⟨nextOfR m e, false⟩ := by
      simp [feSucc, hcur]
    rw [this]
    exact ih (nextOfR m e) stop hrest

theorem nextCycle_head (m : MeshI) (es : List Nat) (cur stop : Nat)
    (hne : es ≠ []) (h : nextCycle m cur es stop) : cur ∈ es := by
  cases es with
  | nil => exact absurd rfl hne
  | cons e rest =>
    rw [h.1]
    exact List.mem_cons_self e rest

/-- C1: if the edge loop followed via next-references from `root` is a
cycle of the `k` distinct (self-resolving) edges `es`, returning to the
root after the `k`-th next-step, and none of them carries the pass tag
yet, then the `FaceEdges` walk started at `root` yields exactly `es` —
each edge exactly once, in next-order starting at the root — no matter
how much further it is driven. -/
theorem faceEdges_yields_loop (m : MeshI) (t root : Nat) (es : List Nat)
    (hm : 0 < m.edges.length)
    (hne : es ≠ [])
    (hcyc : nextCycle m root es root)
    (hnd : es.Nodup)
    (hres : ∀ e ∈ es, resolveE m e = e)
    (htag : ∀ e ∈ es, tagOfR m e ≠ t)
    (fuel : Nat) (hfuel : es.length ≤ fuel) :
    (runFaceEdges m t root fuel).1 = es := by
  have hroot : root ∈ es := nextCycle_head m es root root hne hcyc
  apply runWalk_eq_of_chainSeg feSucc
    (fun mm i tt s => feSucc_stampE mm i tt s) t es m ⟨root, false⟩
    ⟨root, false⟩ fuel hm
    (chainSeg_of_nextCycle m es root root hcyc) hnd hres htag
  · left
    show resolveE m root ∈ es
    rw [hres root hroot]
    exact hroot
  · exact hfuel

/-- C1 witness: a triangle (edges 1, 2, 3 around face 1, boundary twins
4, 5, 6). -/
def triW : MeshI :=
  ⟨[EdgeI.sentinel,
    ⟨4, 2, 3, 1, 1, 0⟩, ⟨5, 3, 1, 2, 1, 0⟩, ⟨6, 1, 2, 3, 1, 0⟩,
    ⟨1, 6, 5, 2, 0, 0⟩, ⟨2, 4, 6, 3, 0, 0⟩, ⟨3, 5, 4, 1, 0, 0⟩],
   [FaceI.sentinel, ⟨true, 1⟩],
   [VertexI.sentinel, ⟨1⟩, ⟨2⟩, ⟨3⟩], 1⟩

theorem faceEdges_yields_loop_witness :
    0 < triW.edges.length ∧ ([1, 2, 3] : List Nat) ≠ [] ∧
    nextCycle triW 1 [1, 2, 3] 1 ∧ ([1, 2, 3] : List Nat).Nodup ∧
    (∀ e ∈ ([1, 2, 3] : List Nat), resolveE triW e = e) ∧
    (∀ e ∈ ([1, 2, 3] : List Nat), tagOfR triW e ≠ 7) ∧
    ([1, 2, 3] : List Nat).length ≤ 3 ∧
    (runFaceEdges triW 7 1 3).1 = [1, 2, 3] :=
  ⟨by decide, by decide, by simp [nextCycle]; decide, by decide,
   by decide, by decide, by decide,
   faceEdges_yields_loop triW 7 1 [1, 2, 3] (by decide) (by decide)
     (by simp [nextCycle]; decide) (by decide) (by decide) (by decide)
     3 (by decide)⟩

/-! ## C3: tag-stamping bounds every walk

These lemmas hold for *every* mesh, with arbitrary (malformed)
connectivity: a non-involutive twin relation or a next-cycle that never
returns to its start only changes which edges get visited, never the
bound.  The embedding is total — every lookup falls back to the sentinel
slot — mirroring the absence of panics in the Rust walks. -/

theorem runWalk_stop (succ : MeshI → WSt → WSt) (t : Nat) (m : MeshI)
    (s : WSt) (fuel : Nat) (ht : tagOfR m s.cur = t) :
    runWalk succ t fuel m s = ([], m, s) := by
  cases fuel with
  | zero => rfl
  | succ f => simp [runWalk, tagStep, ht]

theorem runWalk_cons (succ : MeshI → WSt → WSt) (t : Nat) (m : MeshI)
    (s : WSt) (fuel : Nat) (ht : tagOfR m s.cur ≠ t) :
    (runWalk succ t (fuel + 1) m s).1 =
      s.cur ::
        (runWalk succ t fuel (stampE m s.cur t) (succ (stampE m s.cur t) s)).1 := by
  simp [runWalk, tagStep, ht]

theorem length_filter_set {α : Type} (p : α → Bool) :
    ∀ (l : List α) (i : Nat) (a d : α), i < l.length →
      p (l.getD i d) = true → p a = false →
      ((l.set i a).filter p).length + 1 = (l.filter p).length := by
  intro l
  induction l with
  | nil => intro i a d hi; simp at hi
  | cons x xs ih =>
    intro i a d hi hold hnew
    cases i with
    | zero =>
      have hx : p x = true := by simpa using hold
      simp [List.filter_cons, hx, hnew]
    | succ j =>
      have hj : j < xs.length := by simpa using hi
      have hold2 : p (xs.getD j d) = true := by simpa using hold
      have := ih j a d hj hold2 hnew
      by_cases hx : p x = true
      · simp only [List.set_cons_succ, List.filter_cons, hx]
        simpa using this
      · have hx2 : p x = false := by
          cases hp : p x
          · rfl
          · exact absurd hp hx
        simp only [List.set_cons_succ, List.filter_cons, hx2]
        simpa using this

theorem untaggedCount_stampE (m : MeshI) (t : Nat) (cur : Nat)
    (hm : 0 < m.edges.length) (ht : tagOfR m cur ≠ t) :
    untaggedCount (stampE m cur t) t + 1 = untaggedCount m t := by
  unfold untaggedCount stampE
  simp only
  apply length_filter_set (fun e => e.tag != t) m.edges (resolveE m cur)
    _ EdgeI.sentinel (resolveE_lt m cur hm)
  · have : (m.edges.getD (resolveE m cur) EdgeI.sentinel).tag ≠ t := ht
    simpa using this
  · simp

theorem runWalk_yields_untagged (succ : MeshI → WSt → WSt) (t : Nat) :
    ∀ (fuel : Nat) (m : MeshI) (s : WSt) (y : Nat),
      y ∈ (runWalk succ t fuel m s).1 → tagOfR m y ≠ t := by
  intro fuel
  induction fuel with
  | zero => intro m s y hy; simp [runWalk] at hy
  | succ f ih =>
    intro m s y hy
    by_cases ht : tagOfR m s.cur = t
    · rw [runWalk_stop succ t m s (f + 1) ht] at hy
      simp at hy
    · rw [runWalk_cons succ t m s f ht] at hy
      rcases List.mem_cons.mp hy with hh | hh
      · rw [hh]; exact ht
      · intro hcontra
        have h2 := tagOfR_stampE_of_eq m s.cur t y hcontra
        exact ih (stampE m s.cur t) (succ (stampE m s.cur t) s) y hh h2

theorem runWalk_nodup_bound (succ : MeshI → WSt → WSt) (t : Nat) :
    ∀ (fuel : Nat) (m : MeshI) (s : WSt), 0 < m.edges.length →
      (((runWalk succ t fuel m s).1.map (resolveE m)).Nodup ∧
       (runWalk succ t fuel m s).1.length ≤ untaggedCount m t) := by
  intro fuel
  induction fuel with
  | zero => intro m s _; simp [runWalk]
  | succ f ih =>
    intro m s hm
    by_cases ht : tagOfR m s.cur = t
    · rw [runWalk_stop succ t m s (f + 1) ht]
      simp
    · rw [runWalk_cons succ t m s f ht]
      have hm2 : 0 < (stampE m s.cur t).edges.length := by
        rw [stampE_edges_length]; exact hm
      obtain ⟨ihnd, ihlen⟩ := ih (stampE m s.cur t) (succ (stampE m s.cur t) s) hm2
      have hmapeq : resolveE (stampE m s.cur t) = resolveE m :=
        funext (fun j => resolveE_stampE m s.cur t j)
      rw [hmapeq] at ihnd
      constructor
      · rw [List.map_cons]
        refine List.nodup_cons.mpr ⟨?_, ihnd⟩
        intro hmem
        obtain ⟨y, hy, hyeq⟩ := List.mem_map.mp hmem
        have hunt := runWalk_yields_untagged succ t f (stampE m s.cur t)
          (succ (stampE m s.cur t) s) y hy
        rw [tagOfR_stampE m s.cur t y hm] at hunt
        rw [hyeq] at hunt
        simp at hunt
      · rw [List.length_cons]
        have := untaggedCount_stampE m t s.cur hm ht
        omega

theorem runWalk_stable (succ : MeshI → WSt → WSt) (t : Nat) :
    ∀ (fuel : Nat) (m : MeshI) (s : WSt), 0 < m.edges.length →
      untaggedCount m t ≤ fuel →
      (runWalk succ t fuel m s).1 =
        (runWalk succ t (untaggedCount m t) m s).1 := by
  intro fuel
  induction fuel with
  | zero =>
    intro m s _ hu
    have : untaggedCount m t = 0 := Nat.le_zero.mp hu
    rw [this]
  | succ f ih =>
    intro m s hm hu
    by_cases ht : tagOfR m s.cur = t
    · rw [runWalk_stop succ t m s (f + 1) ht,
        runWalk_stop succ t m s (untaggedCount m t) ht]
    · have hsplit := untaggedCount_stampE m t s.cur hm ht
      have hm2 : 0 < (stampE m s.cur t).edges.length := by
        rw [stampE_edges_length]; exact hm
      rw [runWalk_cons succ t m s f ht]
      have hru : untaggedCount m t = untaggedCount (stampE m s.cur t) t + 1 :=
        hsplit.symm
      rw [hru, runWalk_cons succ t m s (untaggedCount (stampE m s.cur t) t) ht]
      congr 1
      exact ih (stampE m s.cur t) (succ (stampE m s.cur t) s) hm2 (by omega)

theorem untaggedCount_le (m : MeshI) (t : Nat) :
    untaggedCount m t ≤ m.edges.length :=
  List.length_filter_le _ _

/-- C3: on every mesh — malformed connectivity included — the two
tag-stamped walks never yield the same half-edge (resolved slot) twice
in one pass, yield at most as many edges as the mesh stores, and
stabilise after one pass over the untagged slots: extra fuel beyond the
untagged-slot budget changes nothing.  (The embedding of both walks is a
total function, matching the absence of panics.) -/
theorem walks_bounded_one_pass (m : MeshI) (t root v fuel k : Nat)
    (hm : 0 < m.edges.length) :
    (((runFaceEdges m t root fuel).1.map (resolveE m)).Nodup ∧
     (runFaceEdges m t root fuel).1.length ≤ m.edges.length ∧
     (runFaceEdges m t root (untaggedCount m t + k)).1 =
       (runFaceEdges m t root (untaggedCount m t)).1) ∧
    (((runVertexCirc m t v fuel).1.map (resolveE m)).Nodup ∧
     (runVertexCirc m t v fuel).1.length ≤ m.edges.length ∧
     (runVertexCirc m t v (untaggedCount m t + k)).1 =
       (runVertexCirc m t v (untaggedCount m t)).1) := by
  refine ⟨⟨?_, ?_, ?_⟩, ⟨?_, ?_, ?_⟩⟩
  · exact (runWalk_nodup_bound feSucc t fuel m ⟨root, false⟩ hm).1
  · exact le_trans (runWalk_nodup_bound feSucc t fuel m ⟨root, false⟩ hm).2
      (untaggedCount_le m t)
  · exact runWalk_stable feSucc t (untaggedCount m t + k) m ⟨root, false⟩ hm
      (Nat.le_add_right _ _)
  · exact (runWalk_nodup_bound (fun mm s => vcSucc mm (veOf m v) s) t fuel m
      ⟨veOf m v, false⟩ hm).1
  · exact le_trans (runWalk_nodup_bound (fun mm s => vcSucc mm (veOf m v) s) t
      fuel m ⟨veOf m v, false⟩ hm).2 (untaggedCount_le m t)
  · exact runWalk_stable (fun mm s => vcSucc mm (veOf m v) s) t
      (untaggedCount m t + k) m ⟨veOf m v, false⟩ hm (Nat.le_add_right _ _)

theorem walks_bounded_one_pass_witness :
    0 < triW.edges.length ∧
    (((runFaceEdges triW 7 1 4).1.map (resolveE triW)).Nodup ∧
     (runFaceEdges triW 7 1 4).1.length ≤ triW.edges.length) := by
  have h := walks_bounded_one_pass triW 7 1 1 4 2 (by decide)
  exact ⟨by decide, h.1.1, h.1.2.1⟩

/-! ## C2: the vertex one-ring circulator

`ccwLinkB m a b`: rotating counter-clockwise ("prev then twin") from `a`
reaches `b`.  `cwLinkB m a b`: rotating clockwise ("twin then next")
from `a` reaches `b`.  A *single fan* at a vertex is the usual manifold
one-ring: either a closed cycle of interior edges under CCW rotation, or
an open CCW chain whose last edge is the single boundary edge, the CW
links running backwards along it and wrapping from the chain's first
edge to its last. -/

def ccwLinkB (m : MeshI) (a b : Nat) : Bool := twinOfR m (prevOfR m a) == b

def cwLinkB (m : MeshI) (a b : Nat) : Bool := nextOfR m (twinOfR m a) == b

/-- An interior vertex's one-ring: the outgoing edges `os`, in CCW
order, all non-boundary, cyclically CCW-linked, containing the vertex's
own outgoing edge. -/
def closedFanAt (m : MeshI) (v : Nat) (os : List Nat) : Prop :=
  os ≠ [] ∧ veOf m v ∈ os ∧ os.Nodup ∧
  (∀ e ∈ os, resolveE m e = e) ∧
  (∀ e ∈ os, (m.edgeRef e).vertex = v) ∧
  (∀ e ∈ os, isBoundaryI m e = false) ∧
  List.Chain' (fun a b => ccwLinkB m a b = true) os ∧
  (∀ a ∈ os.getLast?, ∀ b ∈ os.head?, ccwLinkB m a b = true)

/-- A boundary vertex's one-ring with a single gap: the outgoing edges
`os` in CCW order, the last (and only the last) being the boundary edge,
CCW-linked forwards, CW-linked backwards, the CW rotation from the first
edge wrapping to the last. -/
def openFanAt (m : MeshI) (v : Nat) (os : List Nat) : Prop :=
  os ≠ [] ∧ veOf m v ∈ os ∧ os.Nodup ∧
  (∀ e ∈ os, resolveE m e = e) ∧
  (∀ e ∈ os, (m.edgeRef e).vertex = v) ∧
  (∀ e ∈ os.dropLast, isBoundaryI m e = false) ∧
  (∀ b ∈ os.getLast?, isBoundaryI m b = true) ∧
  List.Chain' (fun a b => ccwLinkB m a b = true) os ∧
  List.Chain' (fun a b => cwLinkB m b a = true) os ∧
  (∀ a ∈ os.head?, ∀ b ∈ os.getLast?, cwLinkB m a b = true)

theorem chainSeg_ccw_interior (m : MeshI) (ve : Nat) :
    ∀ (seg : List Nat) (cur stop : Nat),
      List.Chain' (fun a b => ccwLinkB m a b = true) (cur :: seg) →
      (∀ e ∈ cur :: seg, isBoundaryI m e = false) →
      ccwLinkB m ((cur :: seg).getLast (List.cons_ne_nil cur seg)) stop = true →
      chainSeg (fun mm s => vcSucc mm ve s) m ⟨cur, false⟩ (cur :: seg)
        ⟨stop, false⟩ := by
  intro seg
  induction seg with
  | nil =>
    intro cur stop _ hbd hlast
    have hb : isBoundaryI m cur = false := hbd cur (by simp)
    have hl : twinOfR m (prevOfR m cur) = stop := by
      simpa [ccwLinkB] using hlast
    refine ⟨rfl, ?_⟩
    show vcSucc m ve ⟨cur, false⟩ = ⟨stop, false⟩
    simp [vcSucc, hb, hl]
  | cons d rest ih =>
    intro cur stop hch hbd hlast
    have hcd : ccwLinkB m cur d = true := (List.chain'_cons.mp hch).1
    have hb : isBoundaryI m cur = false := hbd cur (by simp)
    refine ⟨rfl, ?_⟩
    have hstep : vcSucc m ve ⟨cur, false⟩ = ⟨d, false⟩ := by
      have hl : twinOfR m (prevOfR m cur) = d := by simpa [ccwLinkB] using hcd
      simp [vcSucc, hb, hl]
    show chainSeg (fun mm s => vcSucc mm ve s) m (vcSucc m ve ⟨cur, false⟩)
      (d :: rest) ⟨stop, false⟩
    rw [hstep]
    apply ih d stop (List.chain'_cons.mp hch).2
    · intro e he
      exact hbd e (List.mem_cons_of_mem cur he)
    · rw [List.getLast_cons (List.cons_ne_nil d rest)] at hlast
      exact hlast

theorem chainSeg_ccw_pivot (m : MeshI) (ve : Nat) :
    ∀ (seg : List Nat) (cur : Nat),
      List.Chain' (fun a b => ccwLinkB m a b = true) (cur :: seg) →
      (∀ e ∈ (cur :: seg).dropLast, isBoundaryI m e = false) →
      isBoundaryI m ((cur :: seg).getLast (List.cons_ne_nil cur seg)) = true →
      chainSeg (fun mm s => vcSucc mm ve s) m ⟨cur, false⟩ (cur :: seg)
        ⟨nextOfR m (twinOfR m ve), true⟩ := by
  intro seg
  induction seg with
  | nil =>
    intro cur _ _ hlast
    have hb : isBoundaryI m cur = true := by simpa using hlast
    refine ⟨rfl, ?_⟩
    show vcSucc m ve ⟨cur, false⟩ = ⟨nextOfR m (twinOfR m ve), true⟩
    simp [vcSucc, hb]
  | cons d rest ih =>
    intro cur hch hbd hlast
    have hcd : ccwLinkB m cur d = true := (List.chain'_cons.mp hch).1
    have hb : isBoundaryI m cur = false := by
      apply hbd cur
      simp
    refine ⟨rfl, ?_⟩
    have hstep : vcSucc m ve ⟨cur, false⟩ = ⟨d, false⟩ := by
      have hl : twinOfR m (prevOfR m cur) = d := by simpa [ccwLinkB] using hcd
      simp [vcSucc, hb, hl]
    show chainSeg (fun mm s => vcSucc mm ve s) m (vcSucc m ve ⟨cur, false⟩)
      (d :: rest) ⟨nextOfR m (twinOfR m ve), true⟩
    rw [hstep]
    apply ih d (List.chain'_cons.mp hch).2
    · intro e he
      apply hbd e
      simpa using Or.inr he
    · rw [List.getLast_cons (List.cons_ne_nil d rest)] at hlast
      exact hlast

theorem chainSeg_cw (m : MeshI) (ve : Nat) :
    ∀ (seg : List Nat) (cur stop : Nat),
      List.Chain' (fun a b => cwLinkB m a b = true) (cur :: seg) →
      (∀ e ∈ cur :: seg, isBoundaryI m e = false) →
      cwLinkB m ((cur :: seg).getLast (List.cons_ne_nil cur seg)) stop = true →
      chainSeg (fun mm s => vcSucc mm ve s) m ⟨cur, true⟩ (cur :: seg)
        ⟨stop, true⟩ := by
  intro seg
  induction seg with
  | nil =>
    intro cur stop _ hbd hlast
    have hb : isBoundaryI m cur = false := hbd cur (by simp)
    have hl : nextOfR m (twinOfR m cur) = stop := by
      simpa [cwLinkB] using hlast
    refine ⟨rfl, ?_⟩
    show vcSucc m ve ⟨cur, true⟩ = ⟨stop, true⟩
    simp [vcSucc, hb, hl]
  | cons d rest ih =>
    intro cur stop hch hbd hlast
    have hcd : cwLinkB m cur d = true := (List.chain'_cons.mp hch).1
    have hb : isBoundaryI m cur = false := hbd cur (by simp)
    refine ⟨rfl, ?_⟩
    have hstep : vcSucc m ve ⟨cur, true⟩ = ⟨d, true⟩ := by
      have hl : nextOfR m (twinOfR m cur) = d := by simpa [cwLinkB] using hcd
      simp [vcSucc, hb, hl]
    show chainSeg (fun mm s => vcSucc mm ve s) m (vcSucc m ve ⟨cur, true⟩)
      (d :: rest) ⟨stop, true⟩
    rw [hstep]
    apply ih d stop (List.chain'_cons.mp hch).2
    · intro e he
      exact hbd e (List.mem_cons_of_mem cur he)
    · rw [List.getLast_cons (List.cons_ne_nil d rest)] at hlast
      exact hlast

theorem runVC_open (m : MeshI) (t v : Nat) (os : List Nat)
    (hm : 0 < m.edges.length)
    (htag : ∀ e ∈ os, tagOfR m e ≠ t)
    (hfan : openFanAt m v os)
    (fuel : Nat) (hfuel : os.length ≤ fuel) :
    (runVertexCirc m t v fuel).1.Perm os := by
  obtain ⟨hne, hve, hnd, hres, _, hbdIn, hbdLast, hccw, hcw, hwrap⟩ := hfan
  obtain ⟨l1, l2, hsplit⟩ := List.append_of_mem hve
  subst hsplit
  have hl2ne : (veOf m v :: l2) ≠ [] := List.cons_ne_nil _ _
  have hccwParts := List.chain'_append.mp hccw
  have hcwParts := List.chain'_append.mp hcw
  have hdropEq : (l1 ++ veOf m v :: l2).dropLast = l1 ++ (veOf m v :: l2).dropLast :=
    List.dropLast_append_of_ne_nil l1 hl2ne
  have hglast : (l1 ++ veOf m v :: l2).getLast hne = (veOf m v :: l2).getLast hl2ne :=
    List.getLast_append_of_ne_nil hl2ne
  have hbLast : isBoundaryI m ((veOf m v :: l2).getLast hl2ne) = true := by
    apply hbdLast
    rw [List.getLast?_eq_getLast _ hne, hglast]
    exact Option.mem_def.mpr rfl
  have chainA : chainSeg (fun mm s => vcSucc mm (veOf m v) s) m
      ⟨veOf m v, false⟩ (veOf m v :: l2)
      ⟨nextOfR m (twinOfR m (veOf m v)), true⟩ :=
    chainSeg_ccw_pivot m (veOf m v) l2 (veOf m v) hccwParts.2.1
      (fun e he => hbdIn e (by rw [hdropEq]; exact List.mem_append_right l1 he))
      hbLast
  cases l1 with
  | nil =>
    have hw : cwLinkB m (veOf m v) ((veOf m v :: l2).getLast hl2ne) = true := by
      apply hwrap
      · exact Option.mem_def.mpr rfl
      · rw [List.getLast?_eq_getLast _ hne, hglast]
        exact Option.mem_def.mpr rfl
    have hpv : nextOfR m (twinOfR m (veOf m v)) =
        (veOf m v :: l2).getLast hl2ne := by
      simpa [cwLinkB] using hw
    rw [hpv] at chainA
    have hgmem : (veOf m v :: l2).getLast hl2ne ∈ veOf m v :: l2 :=
      List.getLast_mem hl2ne
    have hrun := runWalk_eq_of_chainSeg (fun mm s => vcSucc mm (veOf m v) s)
      (fun mm i tt s => vcSucc_stampE mm i tt (veOf m v) s) t
      (veOf m v :: l2) m ⟨veOf m v, false⟩
      ⟨(veOf m v :: l2).getLast hl2ne, true⟩ fuel hm chainA hnd hres htag
      (Or.inl (by rw [hres _ hgmem]; exact hgmem)) hfuel
    unfold runVertexCirc
    rw [hrun]
    exact List.Perm.refl _
  | cons c l1t =>
    have hl1ne : (c :: l1t) ≠ [] := List.cons_ne_nil _ _
    cases hrev : (c :: l1t).reverse with
    | nil => exact absurd (List.reverse_eq_nil_iff.mp hrev) hl1ne
    | cons b lb =>
    have hbeq : b = (c :: l1t).getLast hl1ne := by
      have h1 : (c :: l1t).reverse.head? = some b := by rw [hrev]; rfl
      rw [List.head?_reverse, List.getLast?_eq_getLast _ hl1ne] at h1
      exact (Option.some.inj h1).symm
    have hpv : nextOfR m (twinOfR m (veOf m v)) = b := by
      have hx := hcwParts.2.2 ((c :: l1t).getLast hl1ne)
        (by rw [List.getLast?_eq_getLast _ hl1ne]; exact Option.mem_def.mpr rfl)
        (veOf m v) (Option.mem_def.mpr rfl)
      rw [← hbeq] at hx
      simpa [cwLinkB] using hx
    have hcwRev : List.Chain' (fun a b2 => cwLinkB m a b2 = true) (b :: lb) := by
      rw [← hrev, List.chain'_reverse]
      exact hcwParts.1
    have hlastrev : (b :: lb).getLast (List.cons_ne_nil b lb) = c := by
      have h1 : (b :: lb).getLast? = some c := by
        rw [← hrev, List.getLast?_reverse]
        rfl
      rw [List.getLast?_eq_getLast (b :: lb) (List.cons_ne_nil b lb)] at h1
      exact Option.some.inj h1
    have hwrapc : cwLinkB m c ((veOf m v :: l2).getLast hl2ne) = true := by
      apply hwrap
      · exact Option.mem_def.mpr rfl
      · rw [List.getLast?_eq_getLast _ hne, hglast]
        exact Option.mem_def.mpr rfl
    have hbdRev : ∀ e ∈ b :: lb, isBoundaryI m e = false := by
      intro e he
      apply hbdIn e
      rw [hdropEq]
      apply List.mem_append_left
      rw [← List.mem_reverse, hrev]
      exact he
    have chainB := chainSeg_cw m (veOf m v) lb b
      ((veOf m v :: l2).getLast hl2ne) hcwRev hbdRev
      (by rw [hlastrev]; exact hwrapc)
    rw [hpv] at chainA
    have chainAll := chainSeg_append (fun mm s => vcSucc mm (veOf m v) s) m
      (veOf m v :: l2) (b :: lb) ⟨veOf m v, false⟩ ⟨b, true⟩
      ⟨(veOf m v :: l2).getLast hl2ne, true⟩ chainA chainB
    have hperm : ((veOf m v :: l2) ++ (b :: lb)).Perm
        ((c :: l1t) ++ veOf m v :: l2) := by
      have h1 : (b :: lb).Perm (c :: l1t) := by
        rw [← hrev]
        exact List.reverse_perm _
      exact (List.Perm.append_left _ h1).trans List.perm_append_comm
    have hgmem : (veOf m v :: l2).getLast hl2ne ∈ veOf m v :: l2 :=
      List.getLast_mem hl2ne
    have hgmemos : (veOf m v :: l2).getLast hl2ne ∈ (c :: l1t) ++ veOf m v :: l2 :=
      List.mem_append_right _ hgmem
    have hrun := runWalk_eq_of_chainSeg (fun mm s => vcSucc mm (veOf m v) s)
      (fun mm i tt s => vcSucc_stampE mm i tt (veOf m v) s) t
      ((veOf m v :: l2) ++ (b :: lb)) m ⟨veOf m v, false⟩
      ⟨(veOf m v :: l2).getLast hl2ne, true⟩ fuel hm chainAll
      (hperm.nodup_iff.mpr hnd)
      (fun e he => hres e (hperm.mem_iff.mp he))
      (fun e he => htag e (hperm.mem_iff.mp he))
      (Or.inl (by
        rw [hres _ hgmemos]
        exact hperm.mem_iff.mpr hgmemos))
      (by rw [hperm.length_eq]; exact hfuel)
    unfold runVertexCirc
    rw [hrun]
    exact hperm

theorem runVC_closed (m : MeshI) (t v : Nat) (os : List Nat)
    (hm : 0 < m.edges.length)
    (htag : ∀ e ∈ os, tagOfR m e ≠ t)
    (hfan : closedFanAt m v os)
    (fuel : Nat) (hfuel : os.length ≤ fuel) :
    (runVertexCirc m t v fuel).1.Perm os := by
  obtain ⟨hne, hve, hnd, hres, _, hbd, hccw, hwrap⟩ := hfan
  obtain ⟨l1, l2, hsplit⟩ := List.append_of_mem hve
  subst hsplit
  have hl2ne : (veOf m v :: l2) ≠ [] := List.cons_ne_nil _ _
  have hccwParts := List.chain'_append.mp hccw
  have hglast : (l1 ++ veOf m v :: l2).getLast hne = (veOf m v :: l2).getLast hl2ne :=
    List.getLast_append_of_ne_nil hl2ne
  cases l1 with
  | nil =>
    have hw : ccwLinkB m ((veOf m v :: l2).getLast hl2ne) (veOf m v) = true := by
      apply hwrap
      · rw [List.getLast?_eq_getLast _ hne, hglast]
        exact Option.mem_def.mpr rfl
      · exact Option.mem_def.mpr rfl
    have chainA := chainSeg_ccw_interior m (veOf m v) l2 (veOf m v) (veOf m v)
      hccwParts.2.1 (fun e he => hbd e (List.mem_append_right [] he)) hw
    have hvemem : veOf m v ∈ veOf m v :: l2 := List.mem_cons_self _ _
    have hrun := runWalk_eq_of_chainSeg (fun mm s => vcSucc mm (veOf m v) s)
      (fun mm i tt s => vcSucc_stampE mm i tt (veOf m v) s) t
      (veOf m v :: l2) m ⟨veOf m v, false⟩ ⟨veOf m v, false⟩ fuel hm
      chainA hnd hres htag
      (Or.inl (by rw [hres _ hvemem]; exact hvemem)) hfuel
    unfold runVertexCirc
    rw [hrun]
    exact List.Perm.refl _
  | cons c l1t =>
    have hl1ne : (c :: l1t) ≠ [] := List.cons_ne_nil _ _
    have hwA : ccwLinkB m ((veOf m v :: l2).getLast hl2ne) c = true := by
      apply hwrap
      · rw [List.getLast?_eq_getLast _ hne, hglast]
        exact Option.mem_def.mpr rfl
      · exact Option.mem_def.mpr rfl
    have chainA := chainSeg_ccw_interior m (veOf m v) l2 (veOf m v) c
      hccwParts.2.1 (fun e he => hbd e (List.mem_append_right _ he)) hwA
    have hwB : ccwLinkB m ((c :: l1t).getLast hl1ne) (veOf m v) = true := by
      apply hccwParts.2.2
      · rw [List.getLast?_eq_getLast _ hl1ne]
        exact Option.mem_def.mpr rfl
      · exact Option.mem_def.mpr rfl
    have chainB := chainSeg_ccw_interior m (veOf m v) l1t c (veOf m v)
      hccwParts.1 (fun e he => hbd e (List.mem_append_left _ he)) hwB
    have chainAll := chainSeg_append (fun mm s => vcSucc mm (veOf m v) s) m
      (veOf m v :: l2) (c :: l1t) ⟨veOf m v, false⟩ ⟨c, false⟩
      ⟨veOf m v, false⟩ chainA chainB
    have hperm : ((veOf m v :: l2) ++ (c :: l1t)).Perm
        ((c :: l1t) ++ veOf m v :: l2) := List.perm_append_comm
    have hvemem : veOf m v ∈ (veOf m v :: l2) ++ (c :: l1t) :=
      List.mem_append_left _ (List.mem_cons_self _ _)
    have hvememos : veOf m v ∈ (c :: l1t) ++ veOf m v :: l2 :=
      List.mem_append_right _ (List.mem_cons_self _ _)
    have hrun := runWalk_eq_of_chainSeg (fun mm s => vcSucc mm (veOf m v) s)
      (fun mm i tt s => vcSucc_stampE mm i tt (veOf m v) s) t
      ((veOf m v :: l2) ++ (c :: l1t)) m ⟨veOf m v, false⟩
      ⟨veOf m v, false⟩ fuel hm chainAll
      (hperm.nodup_iff.mpr hnd)
      (fun e he => hres e (hperm.mem_iff.mp he))
      (fun e he => htag e (hperm.mem_iff.mp he))
      (Or.inl (by rw [hres _ hvememos]; exact hvemem))
      (by rw [hperm.length_eq]; exact hfuel)
    unfold runVertexCirc
    rw [hrun]
    exact hperm

/-- Twin involution, checked on every edge slot (spec §3 invariant 1). -/
def twinInvolutive (m : MeshI) : Bool :=
  (List.range m.edges.length).all fun i => twinOfR m (twinOfR m i) == i

/-- Next/prev mutual inversion, checked on every edge slot (spec §3
invariant 2). -/
def nextPrevInverse (m : MeshI) : Bool :=
  (List.range m.edges.length).all fun i =>
    (prevOfR m (nextOfR m i) == i) && (nextOfR m (prevOfR m i) == i)

/-- Two triangles (edges 1-6 and 7-12, each with a fully wired boundary
loop) sharing only vertex 1: a "bowtie".  Twin involution and next/prev
inversion hold on every edge, yet vertex 1's outgoing edges form two
separate fans. -/
def bowtie : MeshI :=
  ⟨[EdgeI.sentinel,
    ⟨4, 2, 3, 1, 1, 0⟩, ⟨5, 3, 1, 2, 1, 0⟩, ⟨6, 1, 2, 3, 1, 0⟩,
    ⟨1, 6, 5, 2, 0, 0⟩, ⟨2, 4, 6, 3, 0, 0⟩, ⟨3, 5, 4, 1, 0, 0⟩,
    ⟨10, 8, 9, 1, 2, 0⟩, ⟨11, 9, 7, 4, 2, 0⟩, ⟨12, 7, 8, 5, 2, 0⟩,
    ⟨7, 12, 11, 4, 0, 0⟩, ⟨8, 10, 12, 5, 0, 0⟩, ⟨9, 11, 10, 1, 0, 0⟩],
   [FaceI.sentinel, ⟨true, 1⟩, ⟨true, 7⟩],
   [VertexI.sentinel, ⟨1⟩, ⟨2⟩, ⟨3⟩, ⟨4⟩, ⟨5⟩], 1⟩

/-- C2 counterexample: on the bowtie mesh, twin involution and next/prev
inversion hold on all edges and every edge starts untagged, yet the
circulator on vertex 1 — run to exhaustion (13 slots are untagged; extra
fuel changes nothing) — yields only `[1, 6]`: the half-edge 7, outgoing
from vertex 1, is never yielded.  The claim as stated (exactly-once
visitation for every vertex of any mesh with involutive twins and
inverse next/prev) is therefore false. -/
theorem vertex_circulator_cex :
    twinInvolutive bowtie = true ∧
    nextPrevInverse bowtie = true ∧
    (∀ e, e < bowtie.edges.length → tagOfR bowtie e ≠ 7) ∧
    (bowtie.edgeRef 7).vertex = 1 ∧
    resolveE bowtie 7 = 7 ∧
    untaggedCount bowtie 7 = 13 ∧
    (runVertexCirc bowtie 7 1 13).1 = [1, 6] ∧
    (runVertexCirc bowtie 7 1 112).1 = [1, 6] ∧
    7 ∉ (runVertexCirc bowtie 7 1 13).1 := by
  refine ⟨by decide, by decide, by decide, by decide, by decide,
    by decide, by decide, by decide, by decide⟩

/-- C2 amended: for a vertex whose incident outgoing half-edges form a
*single fan* — a closed CCW cycle (interior vertex) or an open CCW chain
ending at the unique boundary edge (vertex on one open boundary) — the
circulator yields each of those half-edges exactly once and terminates
within valence-many steps: driven with any fuel of at least the valence,
the yielded list is a permutation of the fan. -/
theorem vertex_circulator_single_fan (m : MeshI) (t v : Nat) (os : List Nat)
    (hm : 0 < m.edges.length)
    (htag : ∀ e ∈ os, tagOfR m e ≠ t)
    (hfan : closedFanAt m v os ∨ openFanAt m v os)
    (fuel : Nat) (hfuel : os.length ≤ fuel) :
    (runVertexCirc m t v fuel).1.Perm os := by
  cases hfan with
  | inl h => exact runVC_closed m t v os hm htag h fuel hfuel
  | inr h => exact runVC_open m t v os hm htag h fuel hfuel

theorem vertex_circulator_single_fan_witness :
    0 < triW.edges.length ∧
    (∀ e ∈ ([1, 6] : List Nat), tagOfR triW e ≠ 7) ∧
    (closedFanAt triW 1 [1, 6] ∨ openFanAt triW 1 [1, 6]) ∧
    ([1, 6] : List Nat).length ≤ 2 ∧
    (runVertexCirc triW 7 1 2).1.Perm [1, 6] := by
  have hopen : openFanAt triW 1 [1, 6] := by
    refine ⟨by decide, by decide, by decide, by decide, by decide,
      by decide, ?_, ?_, ?_, ?_⟩
    · intro b hb
      simp at hb
      subst hb
      decide
    · exact List.chain'_cons.mpr ⟨by decide, List.chain'_singleton _⟩
    · exact List.chain'_cons.mpr ⟨by decide, List.chain'_singleton _⟩
    · intro a ha b hb
      simp at ha hb
      subst ha
      subst hb
      decide
  exact ⟨by decide, by decide, Or.inr hopen, by decide,
    vertex_circulator_single_fan triW 7 1 [1, 6] (by decide) (by decide)
      (Or.inr hopen) 2 (by decide)⟩

/-! ## C7 and C10: the visitation-tag counter

`Mesh::next_tag` and `Mesh::faces` (`lib.rs` lines 63-65 and 77-80) both
draw a pass tag with `self.tag.fetch_add(1, SeqCst)`, which returns the
current counter value and increments it; `issuedTags m n` is the
sequence of tags drawn by `n` successive passes over the mesh. -/

def issuedTags (m : MeshI) : Nat → List Nat
  | 0 => []
  | n + 1 => (m.nextTag).1 :: issuedTags (m.nextTag).2 n

theorem issuedTags_ge : ∀ (n : Nat) (m : MeshI) (t : Nat),
    t ∈ issuedTags m n → m.tagCounter ≤ t := by
  intro n
  induction n with
  | zero => intro m t ht; simp [issuedTags] at ht
  | succ k ih =>
    intro m t ht
    rcases List.mem_cons.mp ht with hh | hh
    · rw [hh]; simp [MeshI.nextTag]
    · have := ih (m.nextTag).2 t hh
      simp [MeshI.nextTag] at this
      omega

/-- C7: the tags drawn by successive passes over one mesh are strictly
increasing — every issued tag is strictly greater than all tags issued
before it — so no two passes on the same mesh ever share a tag. -/
theorem issued_tags_strictly_increasing (m : MeshI) (n : Nat) :
    (issuedTags m n).Pairwise (· < ·) ∧ (issuedTags m n).Nodup := by
  have hlt : ∀ (k : Nat) (mm : MeshI), (issuedTags mm k).Pairwise (· < ·) := by
    intro k
    induction k with
    | zero => intro mm; simp [issuedTags]
    | succ j ih =>
      intro mm
      refine List.pairwise_cons.mpr ⟨?_, ih (mm.nextTag).2⟩
      intro t ht
      have h1 := issuedTags_ge j (mm.nextTag).2 t ht
      simp [MeshI.nextTag] at h1 ⊢
      omega
  exact ⟨hlt n m, (hlt n m).imp (fun h => Nat.ne_of_lt h)⟩

/-- C10: the counter starts at 1 (`AtomicUsize::new(1)` in `Mesh::new`)
and `fetch_add` only increases it, so tag 0 is never issued; a newly
added element carries visitation tag 0 (`ElementProperties::default`,
modelled from the spec §3 lifecycle), so the tag-equality test at the
head of a tag-stamped walk can never mistake a fresh element for an
already-visited one. -/
theorem tag_zero_never_issued (n : Nat) :
    MeshI.new.tagCounter = 1 ∧
    EdgeI.sentinel.tag = 0 ∧
    ∀ t ∈ issuedTags MeshI.new n, 0 < t ∧
      ∀ (m2 : MeshI) (s : WSt) (succ : MeshI → WSt → WSt),
        tagOfR m2 s.cur = 0 → tagStep succ t m2 s ≠ none := by
  refine ⟨rfl, rfl, ?_⟩
  intro t ht
  have h1 : MeshI.new.tagCounter ≤ t := issuedTags_ge n MeshI.new t ht
  have hpos : 0 < t := by
    have : MeshI.new.tagCounter = 1 := rfl
    omega
  refine ⟨hpos, ?_⟩
  intro m2 s succ h0
  have hne : tagOfR m2 s.cur ≠ t := by omega
  simp [tagStep, hne]

theorem tag_zero_never_issued_witness :
    (2 : Nat) ∈ issuedTags MeshI.new 3 ∧ 0 < 2 ∧
    ∀ (m2 : MeshI) (s : WSt) (succ : MeshI → WSt → WSt),
      tagOfR m2 s.cur = 0 → tagStep succ 2 m2 s ≠ none := by
  have h := (tag_zero_never_issued 3).2.2 2 (by decide)
  exact ⟨by decide, h.1, h.2⟩

/-! ## C5 and C6: the generational element buffer

The `ElementBuffer` source file is not part of the snapshot; the buffer
is modelled from the specification (§4.2 operations and contracts, §3
lifecycle, §4.1 handle validity): a slot holds an active flag, a reuse
counter (generation), the visitation tag and the payload; slot 0 is the
permanent sentinel; a handle carries an index and the generation it was
issued with; removal flips the active flag and pushes the slot on the
free list; adding reuses a free slot (bumping its generation) or grows
the storage. -/

structure BSlot (α : Type) where
  active : Bool
  gen : Nat
  tag : Nat
  payload : α
deriving Repr, DecidableEq

structure BHandle where
  idx : Nat
  gen : Nat
deriving Repr, DecidableEq

/-- A default-constructed handle: the sentinel index, generation 0. -/
def BHandle.sentinel : BHandle := ⟨0, 0⟩

structure EBuf (α : Type) where
  slots : List (BSlot α)
  freeCells : List Nat
deriving Repr, DecidableEq

/-- A fresh buffer: only the inactive sentinel at slot 0 (spec §6:
"sentinel-only buffers"). -/
def EBuf.new {α : Type} (d : α) : EBuf α := ⟨[⟨false, 0, 0, d⟩], []⟩

/-- Handle validity (spec §4.1): not the sentinel, in range, slot active
and the reuse counter matches. -/
def handleValid {α : Type} (b : EBuf α) (h : BHandle) : Bool :=
  match b.slots.get? h.idx with
  | some s => (h.idx != 0) && s.active && (s.gen == h.gen)
  | none => false

/-- The sentinel slot (slot 0; every buffer the library builds is
nonempty). -/
def EBuf.slot0 {α : Type} (b : EBuf α) (d : α) : BSlot α :=
  b.slots.headD ⟨false, 0, 0, d⟩

/-- `get` (spec §4.2): the payload of the named slot for a valid handle,
the sentinel's payload otherwise; never aborts. -/
def EBuf.get {α : Type} (b : EBuf α) (d : α) (h : BHandle) : α :=
  if handleValid b h then (b.slots.getD h.idx (b.slot0 d)).payload
  else (b.slot0 d).payload

/-- `get_mut` (spec §4.2): an absent result for an invalid handle,
otherwise the element. -/
def EBuf.getMut {α : Type} (b : EBuf α) (h : BHandle) : Option α :=
  if handleValid b h then (b.slots.get? h.idx).map (fun s => s.payload)
  else none

/-- `add` (spec §4.2, §3 lifecycle): reuse a free slot (bumping its
reuse counter) or grow; the new element is active with visitation tag
zero; returns the fresh handle. -/
def EBuf.add {α : Type} (b : EBuf α) (a : α) : BHandle × EBuf α :=
  match b.freeCells with
  | [] => (⟨b.slots.length, 0⟩, ⟨b.slots ++ [⟨true, 0, 0, a⟩], []⟩)
  | f :: rest =>
    match b.slots.get? f with
    | some s => (⟨f, s.gen + 1⟩, ⟨b.slots.set f ⟨true, s.gen + 1, 0, a⟩, rest⟩)
    | none => (⟨b.slots.length, 0⟩, ⟨b.slots ++ [⟨true, 0, 0, a⟩], rest⟩)

/-- `remove` (spec §4.2): mark the slot inactive and return it to the
free list; removing through an invalid handle (sentinel, out of range,
stale generation, already inactive) is a no-op. -/
def EBuf.remove {α : Type} (b : EBuf α) (h : BHandle) : EBuf α :=
  if handleValid b h then
    match b.slots.get? h.idx with
    | some s => ⟨b.slots.set h.idx { s with active := false }, h.idx :: b.freeCells⟩
    | none => b
  else b

/-- In-place mutation through `get_mut`: replaces the payload behind a
valid handle, otherwise does nothing. -/
def EBuf.mutate {α : Type} (b : EBuf α) (h : BHandle) (a : α) : EBuf α :=
  if handleValid b h then
    match b.slots.get? h.idx with
    | some s => ⟨b.slots.set h.idx { s with payload := a }, b.freeCells⟩
    | none => b
  else b

/-- A traversal's tag write (`props().tag.set(..)` through the shared
reference `ElementBuffer::get` returned): stamps the resolved slot,
falling back to the sentinel slot. -/
def EBuf.stampTag {α : Type} (b : EBuf α) (i t : Nat) : EBuf α :=
  match b.slots.get? (if i < b.slots.length then i else 0) with
  | some s => ⟨b.slots.set (if i < b.slots.length then i else 0)
      { s with tag := t }, b.freeCells⟩
  | none => b

theorem get?_lt_of_some {α : Type} (l : List α) (n : Nat) (a : α)
    (h : l.get? n = some a) : n < l.length := by
  rw [List.get?_eq_getElem?] at h
  exact (List.getElem?_eq_some_iff.mp h).1

theorem handleValid_sentinel {α : Type} (b : EBuf α) :
    handleValid b BHandle.sentinel = false := by
  unfold handleValid
  cases hs : b.slots.get? BHandle.sentinel.idx with
  | none => rfl
  | some s => simp [BHandle.sentinel]

/-- C5: a plain `get` on any invalid handle (the default/sentinel
handle, an out-of-range index, a stale or removed handle) returns the
sentinel's payload without aborting, and `get_mut` returns an absent
result; both hold for a handle immediately after removing it, and the
removed handle is itself invalid.  The `Mesh::edge` conjunct restates
the sentinel fallback of the in-snapshot lookup (`mesh.rs` 163-170). -/
theorem get_sentinel_on_invalid {α : Type} (b : EBuf α) (d : α) (h : BHandle) :
    (handleValid b h = false →
      b.get d h = (b.slot0 d).payload ∧ b.getMut h = none) ∧
    handleValid (b.remove h) h = false ∧
    (b.remove h).getMut h = none ∧
    (b.remove h).get d h = ((b.remove h).slot0 d).payload ∧
    handleValid b BHandle.sentinel = false ∧
    (∀ (mo : MeshO) (i : Nat), mo.edge_list.length ≤ i →
      mo.edgeAt i = mo.edge_list.headD EdgeO.sentinel) := by
  have hrm : handleValid (b.remove h) h = false := by
    by_cases hv : handleValid b h = true
    · unfold EBuf.remove
      rw [if_pos hv]
      cases hs : b.slots.get? h.idx with
      | none =>
        unfold handleValid at hv
        rw [hs] at hv
        exact absurd hv (by simp)
      | some s =>
        have hlt : h.idx < b.slots.length := get?_lt_of_some _ _ _ hs
        unfold handleValid
        simp only
        rw [List.get?_eq_getElem?]
        rw [List.getElem?_set_self (by simpa using hlt)]
        simp
    · have hv2 : handleValid b h = false := by
        cases hb : handleValid b h
        · rfl
        · exact absurd hb hv
      unfold EBuf.remove
      rw [hv2]
      simp [hv2]
  refine ⟨?_, hrm, ?_, ?_, handleValid_sentinel b, ?_⟩
  · intro hv
    constructor
    · unfold EBuf.get
      rw [hv]
      simp
    · unfold EBuf.getMut
      rw [hv]
      simp
  · unfold EBuf.getMut
    rw [hrm]
    simp
  · unfold EBuf.get
    rw [hrm]
    simp
  · intro mo i hle
    unfold MeshO.edgeAt
    rw [List.get?_eq_getElem?, List.getElem?_eq_none hle]

/-- C5 witness: a one-slot buffer and the out-of-range handle (5, 0). -/
theorem get_sentinel_on_invalid_witness :
    handleValid (EBuf.new (0 : Nat)) ⟨5, 0⟩ = false ∧
    (EBuf.new (0 : Nat)).get 0 ⟨5, 0⟩ = ((EBuf.new (0 : Nat)).slot0 0).payload ∧
    (EBuf.new (0 : Nat)).getMut ⟨5, 0⟩ = none ∧
    handleValid ((EBuf.new (0 : Nat)).remove ⟨5, 0⟩) ⟨5, 0⟩ = false := by
  have h := get_sentinel_on_invalid (EBuf.new (0 : Nat)) 0 ⟨5, 0⟩
  have hinv : handleValid (EBuf.new (0 : Nat)) ⟨5, 0⟩ = false := by decide
  exact ⟨hinv, (h.1 hinv).1, (h.1 hinv).2, h.2.1⟩

/-- Opaque positional payload of a point (spec §3). -/
structure PointR where
  tok : Nat
deriving Repr, DecidableEq

/-- The kernel's four element buffers (`Kernel` in `lib.rs` lines
24-30). -/
structure MeshK where
  edgeBuf : EBuf EdgeI
  faceBuf : EBuf FaceI
  vertBuf : EBuf VertexI
  pointBuf : EBuf PointR
deriving Repr, DecidableEq

/-- `Mesh::new` / `Kernel::default`: each buffer holds only its
sentinel. -/
def MeshK.new : MeshK :=
  ⟨EBuf.new EdgeI.sentinel, EBuf.new FaceI.sentinel,
   EBuf.new VertexI.sentinel, EBuf.new ⟨0⟩⟩

/-- The operations a collaborator can apply to one buffer: add, remove,
mutate through `get_mut`, and a traversal's tag stamp. -/
inductive BufOp (α : Type) where
  | addE (a : α)
  | removeE (h : BHandle)
  | mutateE (h : BHandle) (a : α)
  | stampT (i t : Nat)

def applyBufOp {α : Type} (b : EBuf α) : BufOp α → EBuf α
  | BufOp.addE a => (b.add a).2
  | BufOp.removeE h => b.remove h
  | BufOp.mutateE h a => b.mutate h a
  | BufOp.stampT i t => b.stampTag i t

/-- A mesh-level operation targets one of the four buffers. -/
inductive MeshOp where
  | onEdges (op : BufOp EdgeI)
  | onFaces (op : BufOp FaceI)
  | onVerts (op : BufOp VertexI)
  | onPoints (op : BufOp PointR)

def applyMeshOp (m : MeshK) : MeshOp → MeshK
  | MeshOp.onEdges op => { m with edgeBuf := applyBufOp m.edgeBuf op }
  | MeshOp.onFaces op => { m with faceBuf := applyBufOp m.faceBuf op }
  | MeshOp.onVerts op => { m with vertBuf := applyBufOp m.vertBuf op }
  | MeshOp.onPoints op => { m with pointBuf := applyBufOp m.pointBuf op }

def applyMeshOps (m : MeshK) (ops : List MeshOp) : MeshK :=
  ops.foldl applyMeshOp m

/-- The inductive sentinel invariant of one buffer: nonempty storage, an
inactive slot 0, and a free list that never offers slot 0 for reuse. -/
def sentinelOK {α : Type} (b : EBuf α) : Prop :=
  0 < b.slots.length ∧
  (∀ s ∈ b.slots.head?, s.active = false) ∧
  0 ∉ b.freeCells

theorem head?_append_single {α : Type} (l : List α) (x : α) (h : l ≠ []) :
    (l ++ [x]).head? = l.head? := by
  cases l with
  | nil => exact absurd rfl h
  | cons a rest => simp

theorem head?_set_of_ne_zero {α : Type} (l : List α) (i : Nat) (a : α)
    (h : i ≠ 0) : (l.set i a).head? = l.head? := by
  rw [List.head?_eq_getElem?, List.head?_eq_getElem?,
    List.getElem?_set_ne h]

theorem sentinelOK_applyBufOp {α : Type} (b : EBuf α) (op : BufOp α)
    (hb : sentinelOK b) : sentinelOK (applyBufOp b op) := by
  obtain ⟨hlen, hhead, hfree⟩ := hb
  have hnil : b.slots ≠ [] := List.ne_nil_of_length_pos hlen
  cases op with
  | addE a =>
    show sentinelOK (b.add a).2
    unfold EBuf.add
    cases hf : b.freeCells with
    | nil =>
      refine ⟨by simp, ?_, by simp⟩
      intro s hs
      rw [head?_append_single b.slots _ hnil] at hs
      exact hhead s hs
    | cons f rest =>
      rw [hf] at hfree
      have hf0 : f ≠ 0 := fun hc => hfree (hc ▸ List.mem_cons_self f rest)
      have hrest : 0 ∉ rest := fun hc => hfree (List.mem_cons_of_mem f hc)
      cases hg : b.slots.get? f with
      | some s =>
        simp only [hg]
        refine ⟨by simp; omega, ?_, hrest⟩
        intro s2 hs2
        rw [head?_set_of_ne_zero b.slots f _ hf0] at hs2
        exact hhead s2 hs2
      | none =>
        simp only [hg]
        refine ⟨by simp, ?_, hrest⟩
        intro s2 hs2
        rw [head?_append_single b.slots _ hnil] at hs2
        exact hhead s2 hs2
  | removeE h =>
    show sentinelOK (b.remove h)
    unfold EBuf.remove
    by_cases hv : handleValid b h = true
    · rw [if_pos hv]
      cases hg : b.slots.get? h.idx with
      | none => exact ⟨hlen, hhead, hfree⟩
      | some s =>
        have hidx0 : h.idx ≠ 0 := by
          unfold handleValid at hv
          rw [hg] at hv
          simp at hv
          intro hc
          rw [hc] at hv
          simp at hv
        refine ⟨by simp; omega, ?_, ?_⟩
        · intro s2 hs2
          rw [head?_set_of_ne_zero b.slots h.idx _ hidx0] at hs2
          exact hhead s2 hs2
        · intro hc
          rcases List.mem_cons.mp hc with hh | hh
          · exact hidx0 hh.symm
          · exact hfree hh
    · rw [if_neg hv]
      exact ⟨hlen, hhead, hfree⟩
  | mutateE h a =>
    show sentinelOK (b.mutate h a)
    unfold EBuf.mutate
    by_cases hv : handleValid b h = true
    · rw [if_pos hv]
      cases hg : b.slots.get? h.idx with
      | none => exact ⟨hlen, hhead, hfree⟩
      | some s =>
        have hidx0 : h.idx ≠ 0 := by
          unfold handleValid at hv
          rw [hg] at hv
          simp at hv
          intro hc
          rw [hc] at hv
          simp at hv
        refine ⟨by simp; omega, ?_, hfree⟩
        intro s2 hs2
        rw [head?_set_of_ne_zero b.slots h.idx _ hidx0] at hs2
        exact hhead s2 hs2
    · rw [if_neg hv]
      exact ⟨hlen, hhead, hfree⟩
  | stampT i t =>
    show sentinelOK (b.stampTag i t)
    unfold EBuf.stampTag
    cases hg : b.slots.get? (if i < b.slots.length then i else 0) with
    | none => exact ⟨hlen, hhead, hfree⟩
    | some s =>
      simp only [hg]
      by_cases hr : (if i < b.slots.length then i else 0) = 0
      · rw [hr] at hg ⊢
        have hsh : b.slots.head? = some s := by
          rw [List.head?_eq_getElem?, ← List.get?_eq_getElem?]
          exact hg
        have hsa : s.active = false := hhead s (by rw [hsh]; rfl)
        refine ⟨by simp; omega, ?_, hfree⟩
        intro s2 hs2
        rw [List.head?_eq_getElem?] at hs2
        rw [List.getElem?_set_self (by simpa using hlen)] at hs2
        have : s2 = { s with tag := t } := by
          cases hs2
          rfl
        rw [this]
        exact hsa
      · refine ⟨by simp; omega, ?_, hfree⟩
        intro s2 hs2
        rw [head?_set_of_ne_zero b.slots _ _ hr] at hs2
        exact hhead s2 hs2

def meshSentinelOK (mk : MeshK) : Prop :=
  sentinelOK mk.edgeBuf ∧ sentinelOK mk.faceBuf ∧
  sentinelOK mk.vertBuf ∧ sentinelOK mk.pointBuf

theorem meshSentinelOK_apply (m : MeshK) (op : MeshOp)
    (hm : meshSentinelOK m) : meshSentinelOK (applyMeshOp m op) := by
  obtain ⟨h1, h2, h3, h4⟩ := hm
  cases op with
  | onEdges op => exact ⟨sentinelOK_applyBufOp _ op h1, h2, h3, h4⟩
  | onFaces op => exact ⟨h1, sentinelOK_applyBufOp _ op h2, h3, h4⟩
  | onVerts op => exact ⟨h1, h2, sentinelOK_applyBufOp _ op h3, h4⟩
  | onPoints op => exact ⟨h1, h2, h3, sentinelOK_applyBufOp _ op h4⟩

theorem meshSentinelOK_applyOps : ∀ (ops : List MeshOp) (m : MeshK),
    meshSentinelOK m → meshSentinelOK (applyMeshOps m ops) := by
  intro ops
  induction ops with
  | nil => intro m hm; exact hm
  | cons op rest ih =>
    intro m hm
    exact ih (applyMeshOp m op) (meshSentinelOK_apply m op hm)

theorem sentinelOK_new {α : Type} (d : α) : sentinelOK (EBuf.new d) := by
  refine ⟨by simp [EBuf.new], ?_, by simp [EBuf.new]⟩
  intro s hs
  simp [EBuf.new] at hs
  rw [← hs]

theorem get_sentinel_handle {α : Type} (b : EBuf α) (d : α) :
    b.get d BHandle.sentinel = (b.slot0 d).payload := by
  unfold EBuf.get
  rw [handleValid_sentinel]
  simp

/-- C6: after any sequence of add, remove, mutate and tag-stamping
operations applied to a fresh mesh, slot 0 of each of the four element
buffers still exists and is inactive, and a default-constructed handle
is invalid in each buffer and resolves to that sentinel's payload. -/
theorem sentinel_slot_invariant (ops : List MeshOp) :
    (0 < (applyMeshOps MeshK.new ops).edgeBuf.slots.length ∧
     (∀ s ∈ (applyMeshOps MeshK.new ops).edgeBuf.slots.head?, s.active = false) ∧
     handleValid (applyMeshOps MeshK.new ops).edgeBuf BHandle.sentinel = false ∧
     (applyMeshOps MeshK.new ops).edgeBuf.get EdgeI.sentinel BHandle.sentinel =
       ((applyMeshOps MeshK.new ops).edgeBuf.slot0 EdgeI.sentinel).payload) ∧
    (0 < (applyMeshOps MeshK.new ops).faceBuf.slots.length ∧
     (∀ s ∈ (applyMeshOps MeshK.new ops).faceBuf.slots.head?, s.active = false) ∧
     handleValid (applyMeshOps MeshK.new ops).faceBuf BHandle.sentinel = false ∧
     (applyMeshOps MeshK.new ops).faceBuf.get FaceI.sentinel BHandle.sentinel =
       ((applyMeshOps MeshK.new ops).faceBuf.slot0 FaceI.sentinel).payload) ∧
    (0 < (applyMeshOps MeshK.new ops).vertBuf.slots.length ∧
     (∀ s ∈ (applyMeshOps MeshK.new ops).vertBuf.slots.head?, s.active = false) ∧
     handleValid (applyMeshOps MeshK.new ops).vertBuf BHandle.sentinel = false ∧
     (applyMeshOps MeshK.new ops).vertBuf.get VertexI.sentinel BHandle.sentinel =
       ((applyMeshOps MeshK.new ops).vertBuf.slot0 VertexI.sentinel).payload) ∧
    (0 < (applyMeshOps MeshK.new ops).pointBuf.slots.length ∧
     (∀ s ∈ (applyMeshOps MeshK.new ops).pointBuf.slots.head?, s.active = false) ∧
     handleValid (applyMeshOps MeshK.new ops).pointBuf BHandle.sentinel = false ∧
     (applyMeshOps MeshK.new ops).pointBuf.get ⟨0⟩ BHandle.sentinel =
       ((applyMeshOps MeshK.new ops).pointBuf.slot0 ⟨0⟩).payload) := by
  have hnew : meshSentinelOK MeshK.new :=
    ⟨sentinelOK_new _, sentinelOK_new _, sentinelOK_new _, sentinelOK_new _⟩
  have h := meshSentinelOK_applyOps ops MeshK.new hnew
  obtain ⟨⟨e1, e2, _⟩, ⟨f1, f2, _⟩, ⟨v1, v2, _⟩, ⟨p1, p2, _⟩⟩ := h
  exact ⟨⟨e1, e2, handleValid_sentinel _, get_sentinel_handle _ _⟩,
    ⟨f1, f2, handleValid_sentinel _, get_sentinel_handle _ _⟩,
    ⟨v1, v2, handleValid_sentinel _, get_sentinel_handle _ _⟩,
    ⟨p1, p2, handleValid_sentinel _, get_sentinel_handle _ _⟩⟩
